import Mathlib

/-!
# Verification of the SEF analysis engine (`gui_sef_reader.py`, class `SEFAnalyzer`)

A shallow embedding of the analysis pipeline: header validation, payload
location, zlib decompression, heuristic text decoding, plain/RTF separation,
outline-hierarchy parsing, brace-balanced RTF document extraction, RTF→plain
conversion, and hierarchy-to-chapter assembly.  Text is modelled as `List Char`
(Python `str` is a sequence of code points), byte buffers as `List Nat` with
values < 256.  Python regular-expression substitutions are embedded as explicit
left-to-right scanners realizing the leftmost/greedy/backtracking semantics of
each concrete pattern.
-/

namespace SEF

/-! ## Character classes -/

/-- Tab or space, the indentation characters of `_parse_hierarchy` and the
character set of Python `lstrip('\t ')`. -/
def isTabSpace (c : Char) : Bool := c = '\t' || c = ' '

/-- Python whitespace: the set matched by `str.strip()` / `str.rstrip()` and by
the regex class `\s` on `str` patterns. -/
def pySpace (c : Char) : Bool :=
  let n := c.toNat
  (9 ≤ n && n ≤ 13) || n = 32 || (28 ≤ n && n ≤ 31) || n = 0x85 || n = 0xa0 ||
  n = 0x1680 || (0x2000 ≤ n && n ≤ 0x200a) || n = 0x2028 || n = 0x2029 ||
  n = 0x202f || n = 0x205f || n = 0x3000

/-- The date-unit markers protected by the numeric-cleanup regex (年, 月, 日). -/
def dateUnit (c : Char) : Bool := c = '年' || c = '月' || c = '日'

/-! ## Generic text helpers -/

/-- `str.split('\n')`: always at least one piece, empty pieces kept. -/
def splitLines : List Char → List (List Char)
  | [] => [[]]
  | '\n' :: cs => [] :: splitLines cs
  | c :: cs =>
    match splitLines cs with
    | l :: ls => (c :: l) :: ls
    | [] => [[c]]

/-- `str.rstrip()`: drop trailing Python whitespace. -/
def rstrip (l : List Char) : List Char := (l.reverse.dropWhile pySpace).reverse

/-- `str.strip()`: drop leading and trailing Python whitespace. -/
def pyStrip (l : List Char) : List Char :=
  ((l.dropWhile pySpace).reverse.dropWhile pySpace).reverse

/-- `str.find(pat)`: index of the first occurrence of `pat`, if any. -/
def findSub (pat : List Char) : List Char → Option Nat
  | [] => if pat.isPrefixOf ([] : List Char) then some 0 else none
  | c :: cs =>
    if pat.isPrefixOf (c :: cs) then some 0 else (findSub pat cs).map (· + 1)

/-- The RTF opening token `{\rtf` searched for by `_split_plain_rtf` and
`_complete_hierarchy_split_chapters`. -/
def rtfToken : List Char := ['{', '\\', 'r', 't', 'f']

/-! ## §4.4 TextDecoder — `SEFAnalyzer._decode_text` -/

/-- Single-byte decoding of the legacy double-byte East-Asian codec
(Shift-JIS): ASCII maps to itself, `0xA1`–`0xDF` to halfwidth katakana
(U+FF61–U+FF9F), everything else fails (is dropped by `errors='ignore'`). -/
def sjisDecByte (b : Nat) : Option Char :=
  if b ≤ 0x7F then some (Char.ofNat b)
  else if 0xA1 ≤ b && b ≤ 0xDF then some (Char.ofNat (0xFF61 + (b - 0xA1)))
  else none

/-- Modelled from the spec (§4.4): the double-byte table of the legacy codec.
No claim evaluates a concrete double-byte pair, so the table is abstracted to
"undecodable" (which `errors='ignore'` drops); the single-byte range is exact
in `sjisDecByte`. -/
def sjisPairChars (_b1 _b2 : Nat) : List Char := []

def optChar : Option Char → List Char
  | some c => [c]
  | none => []

/-- `SEFAnalyzer._decode_text`: skip zero bytes, treat bytes ≥ 0x81 with a
successor byte as a 2-byte sequence, decode everything best-effort. -/
def decode_text : List Nat → List Char
  | [] => []
  | [b] => if b = 0 then [] else optChar (sjisDecByte b)
  | b :: b2 :: rest =>
    if b = 0 then decode_text (b2 :: rest)
    else if 0x81 ≤ b then sjisPairChars b b2 ++ decode_text rest
    else optChar (sjisDecByte b) ++ decode_text (b2 :: rest)

/-- Modelled from the spec (§4.8 step 1): `bytes.decode('shift_jis',
errors='ignore')` on a raw byte run; single-byte positions exact, double-byte
pairs abstracted as in `sjisPairChars`. -/
def sjisDecodeBytes : List Nat → List Char
  | [] => []
  | [b] => optChar (sjisDecByte b)
  | b :: b2 :: rest =>
    if b ≤ 0x7F || (0xA1 ≤ b && b ≤ 0xDF) then
      optChar (sjisDecByte b) ++ sjisDecodeBytes (b2 :: rest)
    else sjisPairChars b b2 ++ sjisDecodeBytes rest

/-! ## §4.5 SectionSplitter — `SEFAnalyzer._split_plain_rtf` -/

def split_plain_rtf (text : List Char) : List Char × List Char :=
  match findSub rtfToken text with
  | none => (text, [])
  | some i => (text.take i, text.drop i)

/-! ## §4.6 HierarchyParser — `SEFAnalyzer._parse_hierarchy` -/

structure HierarchyNode where
  title : List Char
  level : Nat
deriving DecidableEq

/-- The per-line level loop of `_parse_hierarchy`: scan leading characters,
`+1` per tab, and `+1` whenever the cumulative space count reaches a multiple
of 4; stop at the first other character.  `sc` is the running `space_count`. -/
def levelAux (sc : Nat) : List Char → Nat
  | [] => 0
  | c :: cs =>
    if c = '\t' then 1 + levelAux sc cs
    else if c = ' ' then (if (sc + 1) % 4 = 0 then 1 else 0) + levelAux (sc + 1) cs
    else 0

def parse_hierarchy (plain_part : List Char) : List HierarchyNode :=
  (splitLines plain_part).filterMap fun line =>
    let l := rstrip line
    if l = [] then none
    else
      let clean := l.dropWhile isTabSpace
      if clean = [] then none else some ⟨clean, levelAux 0 l⟩

/-! ## §4.7 RtfDocumentExtractor — `SEFAnalyzer._extract_complete_rtf` and the
start-offset scan of `_complete_hierarchy_split_chapters` -/

/-- The brace-count loop of `_extract_complete_rtf`: number of characters
consumed until the running count (starting at `n`) returns to 0 at a `}`. -/
def braceScan : List Char → Int → Option Nat
  | [], _ => none
  | c :: cs, n =>
    if c = '{' then (braceScan cs (n + 1)).map (· + 1)
    else if c = '}' then
      if n - 1 = 0 then some 1 else (braceScan cs (n - 1)).map (· + 1)
    else (braceScan cs n).map (· + 1)

def extract_complete_rtf (rtf_data : List Char) (start_pos : Nat) : List Char :=
  if rtf_data.length ≤ start_pos then []
  else
    let tail := rtf_data.drop start_pos
    if rtfToken.isPrefixOf tail then
      match braceScan tail 0 with
      | some k => tail.take k
      | none => tail
    else []

/-- The `while True: rtf_data.find('{\rtf', pos)` loop collecting document
start offsets; `fuel` bounds the iteration count (each step advances `pos`). -/
def rtfStartsAux (rtf : List Char) : Nat → Nat → List Nat
  | _, 0 => []
  | pos, fuel + 1 =>
    match findSub rtfToken (rtf.drop pos) with
    | none => []
    | some i => (pos + i) :: rtfStartsAux rtf (pos + i + 1) fuel

def rtfStarts (rtf : List Char) : List Nat := rtfStartsAux rtf 0 (rtf.length + 1)

/-! ## §4.8 RtfToPlainConverter — `SEFAnalyzer._rtf_to_plain_text`

Each numbered regex substitution of the source is embedded as a scanner with
the leftmost/greedy/backtracking semantics of that concrete pattern.  The
scanners carry a fuel argument; every step consumes at least one character, so
fuel equal to the input length never runs out (the fuel-exhausted equations
are unreachable from the wrappers). -/

def hexVal (c : Char) : Option Nat :=
  let n := c.toNat
  if 48 ≤ n && n ≤ 57 then some (n - 48)
  else if 97 ≤ n && n ≤ 102 then some (n - 87)
  else if 65 ≤ n && n ≤ 70 then some (n - 55)
  else none

/-- Parse a maximal run `(?:\\'[0-9a-fA-F]\x7b2\x7d)+` (step 1); returns the
byte values and the rest of the input. -/
def hexEscRun : List Char → Option (List Nat × List Char)
  | '\\' :: '\'' :: h1 :: h2 :: rest =>
    match hexVal h1, hexVal h2 with
    | some a, some b =>
      (match hexEscRun rest with
       | some (bs, r) => some ((a * 16 + b) :: bs, r)
       | none => some ([a * 16 + b], rest))
    | _, _ => none
  | _ => none

/-- Step 1: decode runs of consecutive hex escapes with the legacy codec. -/
def decodeHexRunsAux : Nat → List Char → List Char
  | _, [] => []
  | 0, s => s
  | fuel + 1, c :: cs =>
    match hexEscRun (c :: cs) with
    | some (bs, rest) => sjisDecodeBytes bs ++ decodeHexRunsAux fuel rest
    | none => c :: decodeHexRunsAux fuel cs

def decodeHexRuns (s : List Char) : List Char := decodeHexRunsAux s.length s

def nonBrace (c : Char) : Bool := c ≠ '{' && c ≠ '}'

/-- After the literal tag of step 2's patterns, parse
`[^\x7b\x7d]*(?:\{[^\x7b\x7d]*\}[^\x7b\x7d]*)*\}`; the classes are disjoint
from the braces, so the regex is deterministic: return the input after the
closing `\x7d`, or `none` when the pattern cannot match here. -/
def tblGroupsAux : Nat → List Char → Option (List Char)
  | 0, _ => none
  | fuel + 1, s =>
    match s.dropWhile nonBrace with
    | '}' :: r => some r
    | '{' :: r =>
      match r.dropWhile nonBrace with
      | '}' :: r2 => tblGroupsAux fuel r2
      | _ => none
    | _ => none

/-- Step 2: remove balanced font-table / color-table blocks
(`\{\\fonttbl...` and `\{\\colortbl...`).  `tag` is the literal block head. -/
def removeTblAux (tag : List Char) : Nat → List Char → List Char
  | _, [] => []
  | 0, s => s
  | fuel + 1, c :: cs =>
    if tag.isPrefixOf (c :: cs) then
      match tblGroupsAux (cs.length + 1) ((c :: cs).drop tag.length) with
      | some rest => removeTblAux tag fuel rest
      | none => c :: removeTblAux tag fuel cs
    else c :: removeTblAux tag fuel cs

def removeTbl (tag : List Char) (s : List Char) : List Char :=
  removeTblAux tag s.length s

/-- One `\\[a-zA-Z]+\d+` unit of step 3's first pattern; returns the rest
after the digits, or `none` when the unit does not match here. -/
def ctrlNumOne : List Char → Option (List Char)
  | '\\' :: r =>
    let letters := r.takeWhile Char.isAlpha
    if letters.isEmpty then none
    else
      let r2 := r.dropWhile Char.isAlpha
      if (r2.takeWhile Char.isDigit).isEmpty then none
      else some (r2.dropWhile Char.isDigit)
  | _ => none

/-- The greedy chain `(?:\s+\\[a-zA-Z]+\d+)*` following a matched unit. -/
def ctrlNumChain : Nat → List Char → List Char
  | 0, s => s
  | fuel + 1, s =>
    if (s.takeWhile pySpace).isEmpty then s
    else
      match ctrlNumOne (s.dropWhile pySpace) with
      | some rest => ctrlNumChain fuel rest
      | none => s

/-- Step 3, first substitution: `\\[a-zA-Z]+\d+(?:\s+\\[a-zA-Z]+\d+)*` → a
single space. -/
def removeCtrlNumAux : Nat → List Char → List Char
  | _, [] => []
  | 0, s => s
  | fuel + 1, c :: cs =>
    match ctrlNumOne (c :: cs) with
    | some rest => ' ' :: removeCtrlNumAux fuel (ctrlNumChain rest.length rest)
    | none => c :: removeCtrlNumAux fuel cs

def removeCtrlNum (s : List Char) : List Char := removeCtrlNumAux s.length s

/-- Step 3, second substitution: `\\[a-zA-Z]+` → a single space. -/
def removeCtrlWordAux : Nat → List Char → List Char
  | _, [] => []
  | 0, s => s
  | fuel + 1, '\\' :: cs =>
    if (cs.takeWhile Char.isAlpha).isEmpty then '\\' :: removeCtrlWordAux fuel cs
    else ' ' :: removeCtrlWordAux fuel (cs.dropWhile Char.isAlpha)
  | fuel + 1, c :: cs => c :: removeCtrlWordAux fuel cs

def removeCtrlWord (s : List Char) : List Char := removeCtrlWordAux s.length s

/-- Step 3, third substitution: `\\[^a-zA-Z]` → nothing. -/
def removeEscAux : Nat → List Char → List Char
  | _, [] => []
  | 0, s => s
  | fuel + 1, '\\' :: c :: cs =>
    if c.isAlpha then '\\' :: removeEscAux fuel (c :: cs) else removeEscAux fuel cs
  | _ + 1, [c] => [c]
  | fuel + 1, c :: cs => c :: removeEscAux fuel cs

def removeEsc (s : List Char) : List Char := removeEscAux s.length s

/-- Step 5, first substitution: `;+` → a single space. -/
def collapseSemisAux : Nat → List Char → List Char
  | _, [] => []
  | 0, s => s
  | fuel + 1, ';' :: cs => ' ' :: collapseSemisAux fuel (cs.dropWhile (· = ';'))
  | fuel + 1, c :: cs => c :: collapseSemisAux fuel cs

def collapseSemis (s : List Char) : List Char := collapseSemisAux s.length s

/-! ### Step 5, second substitution (step 8 of §4.8): residual numeric cleanup

The pattern is
`(?<!__DATE_PATTERN_)(?<![年月日])[0-9]+(?![年月日])(?!__)(?:\s+[0-9]+)*\s*`,
substituted by a single space.  Matching at a position: both look-behinds must
hold on the original text; `[0-9]+` is greedy over the maximal digit run of
length `m` and backtracks against the two look-aheads — if they fail after all
`m` digits, the match retries with `m - 1` digits (the character there is a
digit, so the look-aheads then hold), failing only when `m = 1`; the trailing
group and `\s*` are greedy and nothing follows them, so they never backtrack
(a partially matched group repetition is rolled back and its whitespace is
then taken by `\s*`). -/

/-- The 15-character look-behind literal `__DATE_PATTERN_`. -/
def datePatMarker : List Char := "__DATE_PATTERN_".toList

/-- Both look-behinds at a position, given the original characters before the
position in reverse order. -/
def rlnLookbehindOK (prev : List Char) : Bool :=
  !(datePatMarker.reverse.isPrefixOf prev) &&
    (match prev with
     | [] => true
     | c :: _ => !dateUnit c)

/-- The two look-aheads `(?![年月日])(?!__)` at a position. -/
def rlnLookaheadOK : List Char → Bool
  | [] => true
  | [c] => !dateUnit c
  | c :: d :: _ => !dateUnit c && !(c = '_' && d = '_')

/-- The greedy group `(?:\s+[0-9]+)*`; returns the rest after the complete
repetitions (an incomplete repetition is rolled back). -/
def rlnGroupAux : Nat → List Char → List Char
  | 0, s => s
  | fuel + 1, s =>
    if (s.takeWhile pySpace).isEmpty then s
    else
      let s2 := s.dropWhile pySpace
      if (s2.takeWhile Char.isDigit).isEmpty then s
      else rlnGroupAux fuel (s2.dropWhile Char.isDigit)

/-- The tail of a match after its digits: the group, then greedy `\s*`. -/
def rlnTail (s : List Char) : List Char := (rlnGroupAux s.length s).dropWhile pySpace

/-- The numeric-cleanup scan.  `prev` holds the original characters before the
current position, most recent first, for the look-behinds. -/
def rlnAux : Nat → List Char → List Char → List Char
  | _, _, [] => []
  | 0, _, s => s
  | fuel + 1, prev, c :: cs =>
    if c.isDigit && rlnLookbehindOK prev then
      let s := c :: cs
      let m := (s.takeWhile Char.isDigit).length
      if rlnLookaheadOK (s.drop m) then
        let rest := rlnTail (s.drop m)
        let len := s.length - rest.length
        ' ' :: rlnAux fuel ((s.take len).reverse ++ prev) rest
      else if 2 ≤ m then
        ' ' :: rlnAux fuel ((s.take (m - 1)).reverse ++ prev) (s.drop (m - 1))
      else c :: rlnAux fuel (c :: prev) cs
    else c :: rlnAux fuel (c :: prev) cs

def removeLayoutNumbers (s : List Char) : List Char := rlnAux s.length [] s

/-! ### Step 6: newline and whitespace normalization -/

/-- `replace('\r\n', '\n')` followed by `replace('\r', '\n')`. -/
def normNewlines : List Char → List Char
  | [] => []
  | '\r' :: '\n' :: cs => '\n' :: normNewlines cs
  | '\r' :: cs => '\n' :: normNewlines cs
  | c :: cs => c :: normNewlines cs

/-- `[ \t]+` → a single space. -/
def collapseBlanksAux : Nat → List Char → List Char
  | _, [] => []
  | 0, s => s
  | fuel + 1, c :: cs =>
    if c = ' ' || c = '\t' then
      ' ' :: collapseBlanksAux fuel (cs.dropWhile fun d => d = ' ' || d = '\t')
    else c :: collapseBlanksAux fuel cs

def collapseBlanks (s : List Char) : List Char := collapseBlanksAux s.length s

/-- `^\s+` → nothing, MULTILINE: at start of input or after a `'\n'` of the
original text, a maximal whitespace run (newlines included) is removed; the
next anchor test looks at the last removed character. -/
def stripLineLeadingWSAux : Nat → Bool → List Char → List Char
  | _, _, [] => []
  | 0, _, s => s
  | fuel + 1, atLS, c :: cs =>
    if atLS && pySpace c then
      let run := (c :: cs).takeWhile pySpace
      stripLineLeadingWSAux fuel (run.getLast? = some '\n') ((c :: cs).dropWhile pySpace)
    else c :: stripLineLeadingWSAux fuel (c = '\n') cs

def stripLineLeadingWS (s : List Char) : List Char := stripLineLeadingWSAux s.length true s

/-- The suffix of a run from its last `'\n'` (inclusive); the run itself when
it contains none. -/
def fromLastNewline (run : List Char) : List Char :=
  if run.contains '\n' then '\n' :: (run.reverse.takeWhile (· ≠ '\n')).reverse
  else run

/-- `\s+$` → nothing, MULTILINE: within a maximal whitespace run, `$` can only
be satisfied at end of input (the whole run is removed) or before a `'\n'`
inside the run (greedy backtracking stops at the last one, removing the part
strictly before it; the remainder of the run admits no further match). -/
def stripLineTrailingWSAux : Nat → List Char → List Char
  | _, [] => []
  | 0, s => s
  | fuel + 1, c :: cs =>
    if pySpace c then
      let run := (c :: cs).takeWhile pySpace
      let rest := (c :: cs).dropWhile pySpace
      if rest.isEmpty then []
      else fromLastNewline run ++ stripLineTrailingWSAux fuel rest
    else c :: stripLineTrailingWSAux fuel cs

def stripLineTrailingWS (s : List Char) : List Char := stripLineTrailingWSAux s.length s

/-- `\n\s*\n\s*\n+` → `"\n\n"`: a match starts at a `'\n'` whose maximal
whitespace run contains at least 3 newlines; greediness makes the match end
just after the last newline of the run. -/
def collapseNewlinesAux : Nat → List Char → List Char
  | _, [] => []
  | 0, s => s
  | fuel + 1, '\n' :: cs =>
    let run := ('\n' :: cs).takeWhile pySpace
    if 3 ≤ run.count '\n' then
      '\n' :: '\n' ::
        collapseNewlinesAux fuel
          ((run.reverse.takeWhile (· ≠ '\n')).reverse ++ ('\n' :: cs).dropWhile pySpace)
    else '\n' :: collapseNewlinesAux fuel cs
  | fuel + 1, c :: cs => c :: collapseNewlinesAux fuel cs

def collapseNewlines (s : List Char) : List Char := collapseNewlinesAux s.length s

/-- `SEFAnalyzer._rtf_to_plain_text`: the ordered conversion pipeline. -/
def rtf_to_plain_text (rtf_content : List Char) : List Char :=
  if rtf_content = [] then []
  else
    let t := decodeHexRuns rtf_content
    let t := removeTbl "\x7b\\fonttbl".toList t
    let t := removeTbl "\x7b\\colortbl".toList t
    let t := removeCtrlNum t
    let t := removeCtrlWord t
    let t := removeEsc t
    let t := t.filter fun c => !(c = '{' || c = '}')
    let t := collapseSemis t
    let t := removeLayoutNumbers t
    let t := normNewlines t
    let t := collapseBlanks t
    let t := stripLineLeadingWS t
    let t := stripLineTrailingWS t
    let t := collapseNewlines t
    pyStrip t

/-! ## §4.9 ChapterAssembler — `SEFAnalyzer._split_chapters`,
`_complete_hierarchy_split_chapters`, `_fallback_equal_split`

Python chapter dicts do not always carry the same keys: the empty-hierarchy
and fallback chapters have no `rtf_index` key and the fallback chapters no
`level` key, hence the `Option` fields. -/

structure RTFDoc where
  rtf_index : Nat
  start_pos : Nat
  end_pos : Nat
  rtf_content : List Char
  plain_content : List Char
  size : Nat
deriving DecidableEq

structure Chapter where
  title : List Char
  content : List Char
  level : Option Nat
  start_pos : Nat
  end_pos : Nat
  size : Nat
  rtf_index : Option Int
deriving DecidableEq

/-- The fixed single-chapter title `メインテキスト`. -/
def mainTextTitle : List Char := "メインテキスト".toList

/-- The fixed placeholder content `（対応するコンテンツがありません）`. -/
def noContentMsg : List Char := "（対応するコンテンツがありません）".toList

/-- The document-building loop of `_complete_hierarchy_split_chapters`:
extract every discovered document and convert it. -/
def buildDocs (rtf_data : List Char) : List RTFDoc :=
  (rtfStarts rtf_data).enum.map fun p =>
    let rtf_content := extract_complete_rtf rtf_data p.2
    let plain_content := rtf_to_plain_text rtf_content
    { rtf_index := p.1, start_pos := p.2, end_pos := p.2 + rtf_content.length,
      rtf_content := rtf_content, plain_content := plain_content,
      size := plain_content.length }

/-- The positional 1:1 pairing loop of `_complete_hierarchy_split_chapters`. -/
def pairChapters (rtf_data : List Char) (hierarchy : List HierarchyNode) : List Chapter :=
  let docs := buildDocs rtf_data
  hierarchy.enum.map fun p =>
    match docs.get? p.1 with
    | some doc =>
      { title := p.2.title, content := doc.plain_content, level := some p.2.level,
        start_pos := doc.start_pos, end_pos := doc.end_pos,
        size := doc.plain_content.length, rtf_index := some (doc.rtf_index : Int) }
    | none =>
      { title := p.2.title, content := noContentMsg, level := some p.2.level,
        start_pos := 0, end_pos := 0, size := 0, rtf_index := some (-1) }

/-- `SEFAnalyzer._fallback_equal_split`.  (In Python, calling this with an
empty `chapter_items` list would raise `ZeroDivisionError`; the call site only
reaches it with the guard below, and `_split_chapters` only passes non-empty
hierarchies on.) -/
def fallback_equal_split (rtf_data _plain_text : List Char)
    (chapter_items : List HierarchyNode) : List Chapter :=
  let rtf_len := rtf_data.length
  let chapter_count := chapter_items.length
  let chunk := rtf_len / chapter_count
  (List.range chapter_count).map fun i =>
    let s := i * chunk
    let e := if i < chapter_count - 1 then (i + 1) * chunk else rtf_len
    let content := rtf_to_plain_text ((rtf_data.drop s).take (e - s))
    { title :=
        match chapter_items.get? i with
        | some it => it.title
        | none => '章' :: (Nat.repr (i + 1)).toList,
      content := content, level := none, start_pos := s, end_pos := e,
      size := content.length, rtf_index := none }

/-- `SEFAnalyzer._complete_hierarchy_split_chapters`. -/
def complete_hierarchy_split_chapters (rtf_data plain_text : List Char)
    (hierarchy : List HierarchyNode) : List Chapter :=
  let chapters := pairChapters rtf_data hierarchy
  if chapters = [] then fallback_equal_split rtf_data plain_text hierarchy
  else chapters

/-- `SEFAnalyzer._split_chapters`. -/
def split_chapters (rtf_data : List Char) (hierarchy : List HierarchyNode) : List Chapter :=
  if hierarchy = [] then
    let content := rtf_to_plain_text rtf_data
    [{ title := mainTextTitle, content := content, level := some 0,
       start_pos := 0, end_pos := rtf_data.length, size := content.length,
       rtf_index := none }]
  else complete_hierarchy_split_chapters rtf_data [] hierarchy

/-! ## §4.1–4.3 Header validation, payload location and decompression, and
the orchestration of `SEFAnalyzer.analyze_file`

`analyze_file` raises `ValueError` for the header/payload failures and lets
`zlib.error` escape the specific step, but its outermost `try`/`except`
converts every exception into the `{'success': False, 'error': ...}` result;
the analysis itself is therefore a total function into a tagged result type,
which is how it is embedded. -/

inductive AnalysisError
  | tooSmall
  | badMagic
  | payloadNotFound
  | decompressionFailure
deriving DecidableEq

structure AnalysisOk where
  chapters : List Chapter
  hierarchy : List HierarchyNode
  file_size : Nat
deriving DecidableEq

inductive AnalysisResult
  | ok (r : AnalysisOk)
  | error (e : AnalysisError)
deriving DecidableEq

/-- `struct.unpack('<H', data[0:2])[0]`: the little-endian 16-bit magic. -/
def magicOf (data : List Nat) : Nat := data.getD 0 0 + 256 * data.getD 1 0

/-- `SEFAnalyzer._find_zlib_start`: first adjacent `(0x78, 0x01)` byte pair. -/
def find_zlib_start : List Nat → Option Nat
  | [] => none
  | [_] => none
  | a :: b :: rest =>
    if a = 0x78 && b = 0x01 then some 0
    else (find_zlib_start (b :: rest)).map (· + 1)

/-! ### zlib (modelled)

`zlib` is the Python standard library, not repository code; it is modelled
from the spec (§4.3, §6): a zlib stream is a 2-byte header — whose first two
bytes are the `(0x78, 0x01)` deflate-stream signature the payload locator
scans for — followed by deflate blocks and a big-endian Adler-32 checksum of
the payload.  The model emits and inflates stored (uncompressed) deflate
blocks, the level-0/1 encoding whose streams carry exactly that signature. -/

def adlerStep : Nat × Nat → Nat → Nat × Nat
  | (a, b), x => ((a + x) % 65521, (b + a + x) % 65521)

def adler32 (data : List Nat) : Nat :=
  let p := data.foldl adlerStep (1, 0)
  p.2 * 65536 + p.1

def adlerBytes (data : List Nat) : List Nat :=
  let n := adler32 data
  [n / 2 ^ 24 % 256, n / 2 ^ 16 % 256, n / 2 ^ 8 % 256, n % 256]

/-- A stored deflate block: BFINAL/BTYPE byte, LEN and its ones' complement
(little-endian 16-bit each), then the raw bytes. -/
def mkStoredBlock (final : Bool) (d : List Nat) : List Nat :=
  (if final then 1 else 0) :: d.length % 256 :: d.length / 256 ::
    (65535 - d.length) % 256 :: (65535 - d.length) / 256 :: d

/-- Chunk the payload into stored blocks of at most 65535 bytes. -/
def deflateStoredAux : Nat → List Nat → List Nat
  | 0, d => mkStoredBlock true (d.take 65535)
  | fuel + 1, d =>
    if d.length ≤ 65535 then mkStoredBlock true d
    else mkStoredBlock false (d.take 65535) ++ deflateStoredAux fuel (d.drop 65535)

/-- Modelled from the spec (§4.3, §6): zlib compression, emitting a stored
deflate stream with the `(0x78, 0x01)` header. -/
def zlibCompress (d : List Nat) : List Nat :=
  0x78 :: 0x01 :: (deflateStoredAux d.length d ++ adlerBytes d)

/-- Inflate a sequence of stored blocks; returns the output and the remaining
bytes after the final block. -/
def inflateAux : Nat → List Nat → Option (List Nat × List Nat)
  | 0, _ => none
  | fuel + 1, b :: l0 :: l1 :: n0 :: n1 :: rest =>
    if (b / 2) % 4 ≠ 0 then none
    else
      let len := l0 + 256 * l1
      if n0 + 256 * n1 ≠ 65535 - len then none
      else if rest.length < len then none
      else if b % 2 = 1 then some (rest.take len, rest.drop len)
      else
        match inflateAux fuel (rest.drop len) with
        | some (out, rem) => some (rest.take len ++ out, rem)
        | none => none
  | _ + 1, _ => none

/-- Modelled from the spec (§4.3): `zlib.decompress` on the stored-block
subset — CMF/FLG checks (method 8, valid check bits, no preset dictionary),
inflation, and the Adler-32 trailer check. -/
def zlibDecompress : List Nat → Option (List Nat)
  | cmf :: flg :: rest =>
    if cmf % 16 ≠ 8 || (cmf * 256 + flg) % 31 ≠ 0 || (flg / 32) % 2 ≠ 0 then none
    else
      match inflateAux rest.length rest with
      | some (out, rem) =>
        if 4 ≤ rem.length && rem.take 4 = adlerBytes out then some out else none
      | none => none
  | _ => none

/-- The analysis pipeline of `SEFAnalyzer.analyze_file` on raw file bytes
(the initial file read is the caller's I/O). -/
def analyze_data (data : List Nat) : AnalysisResult :=
  if data.length < 16 then .error .tooSmall
  else if magicOf data ≠ 0x0303 then .error .badMagic
  else
    match find_zlib_start data with
    | none => .error .payloadNotFound
    | some zlib_start =>
      match zlibDecompress (data.drop zlib_start) with
      | none => .error .decompressionFailure
      | some decompressed =>
        let text_content := decode_text decompressed
        let parts := split_plain_rtf text_content
        let hierarchy := parse_hierarchy parts.1
        let chapters := split_chapters parts.2 hierarchy
        .ok { chapters := chapters, hierarchy := hierarchy, file_size := data.length }

/-! ## Specification-side characterizations

Definitions below restate behaviors in the spec's vocabulary, independently of
the scanning code, for comparison with the embedded functions. -/

/-- No adjacent `(0x78, 0x01)` byte pair occurs anywhere in the buffer. -/
def noPair (l : List Nat) : Prop :=
  ∀ i, i < l.length → ¬(l[i]? = some 0x78 ∧ l[i + 1]? = some 0x01)

instance (l : List Nat) : Decidable (noPair l) := by
  unfold noPair
  exact Nat.decidableBallLT _ _

/-- The contribution of one character to the running brace count of §4.7. -/
def braceDelta (c : Char) : Int := if c = '{' then 1 else if c = '}' then -1 else 0

/-- The running brace count over a character list. -/
def runningCount (cs : List Char) : Int := (cs.map braceDelta).sum

/-- The first position (if any) at which the running brace count over the
prefix ending there returns to 0. -/
def firstReturnPos (cs : List Char) : Option Nat :=
  (List.range cs.length).find? fun p => runningCount (cs.take (p + 1)) == 0

/-- The leading tab/space prefix of a line. -/
def leadWS (l : List Char) : List Char := l.takeWhile isTabSpace

/-- The per-line rule of the hierarchy parser, stated in the spec's
vocabulary: skip lines blank after trailing-whitespace trimming; title is the
line with leading tabs/spaces stripped; the level adds 1 per leading tab plus
1 per complete group of 4 spaces counted cumulatively over the whole leading
tab/space prefix. -/
def specLineNode (line : List Char) : Option HierarchyNode :=
  let l := rstrip line
  if l = [] then none
  else some ⟨l.dropWhile isTabSpace, (leadWS l).count '\t' + (leadWS l).count ' ' / 4⟩

/-- The level rule as the claim words it: +1 per leading tab and +1 per
complete run of 4 *consecutive* leading spaces (partial runs add nothing),
scanning stopping at the first other character. -/
def specRunsLevelAux : Nat → List Char → Nat
  | _, [] => 0
  | 0, _ => 0
  | fuel + 1, c :: cs =>
    if c = '\t' then 1 + specRunsLevelAux fuel cs
    else if c = ' ' then
      ((c :: cs).takeWhile (· = ' ')).length / 4 +
        specRunsLevelAux fuel ((c :: cs).dropWhile (· = ' '))
    else 0

def specRunsLevel (l : List Char) : Nat := specRunsLevelAux l.length l

/-! ## Concrete inputs used by witnesses, counterexamples and scenarios -/

/-- The spec §8 brace-balance example `\x7b\\rtf1 text \x7bnested\x7d more\x7d`. -/
def exNestedRtf : List Char := "\x7b\\rtf1 text \x7bnested\x7d more\x7d".toList

/-- A text with its first RTF token at offset 2. -/
def exSplit : List Char := "ab\x7b\\rtf\x7dcd".toList

/-- An RTF part with a second `\x7b\\rtf` token nested inside the brace-balanced
extent of the first document. -/
def ovEx : List Char := "\x7b\\rtf a \x7b\\rtf b\x7d\x7d".toList

/-- The first document discovered in `ovEx`: the whole text, converting to
`"a b"`. -/
def ovDoc0 : RTFDoc := ⟨0, 0, 17, ovEx, "a b".toList, 3⟩

/-- A one-document RTF part used by assembly witnesses. -/
def wRtf : List Char := "\x7b\\rtf1 x\x7d".toList

/-- A two-entry hierarchy used by assembly witnesses. -/
def wHier : List HierarchyNode := [⟨['t'], 0⟩, ⟨['u'], 1⟩]

/-- The single document discovered in `wRtf`. -/
def wDoc : RTFDoc := ⟨0, 0, 9, wRtf, ['x'], 1⟩

/-- A 16-byte header with the correct magic and zeroed fields. -/
def validHeader : List Nat := [0x03, 0x03, 0, 0, 0, 0, 0, 0, 0, 0, 0, 0, 0, 0, 0, 0]

/-- 16 bytes whose leading 16-bit word is not the magic. -/
def wBadMagicBuf : List Nat := List.replicate 16 0

/-- A correct-magic 16-byte buffer containing no deflate signature pair. -/
def wNoPairBuf : List Nat := validHeader

/-- The §8 end-to-end scenario text. -/
def sefC3Text : List Char :=
  "Outline\n\tSection A\n\tSection B\n\x7b\\rtf1 A content\x7d\x7b\\rtf1 B content\x7d".toList

/-- The §4.4 encoding of `sefC3Text` (ASCII, so bytes are the code points). -/
def sefC3Bytes : List Nat := sefC3Text.map Char.toNat

/-- The §8 end-to-end buffer: valid header plus compressed payload. -/
def sefC3Buf : List Nat := validHeader ++ zlibCompress sefC3Bytes

/-- The analysis result of the end-to-end scenario. -/
def sefC3Expected : AnalysisOk :=
  { chapters :=
      [⟨"Outline".toList, "A content".toList, some 0, 0, 17, 9, some 0⟩,
       ⟨"Section A".toList, "B content".toList, some 1, 17, 34, 9, some 1⟩,
       ⟨"Section B".toList, noContentMsg, some 1, 0, 0, 0, some (-1)⟩],
    hierarchy := [⟨"Outline".toList, 0⟩, ⟨"Section A".toList, 1⟩, ⟨"Section B".toList, 1⟩],
    file_size := 91 }

/-! ## Helper lemmas -/

theorem findSub_some (pat : List Char) :
    ∀ (s : List Char) (k : Nat), findSub pat s = some k →
      pat.isPrefixOf (s.drop k) = true ∧
        ∀ j, j < k → pat.isPrefixOf (s.drop j) = false := by
  intro s
  induction s with
  | nil =>
    intro k h
    by_cases hp : pat.isPrefixOf ([] : List Char) = true
    · simp only [findSub, hp, if_true, Option.some.injEq] at h
      subst h
      exact ⟨hp, fun j hj => absurd hj (Nat.not_lt_zero j)⟩
    · simp only [findSub, hp, if_false, Bool.false_eq_true] at h
      simp [hp] at h
  | cons c cs ih =>
    intro k h
    by_cases hp : pat.isPrefixOf (c :: cs) = true
    · simp only [findSub, hp, if_true, Option.some.injEq] at h
      subst h
      exact ⟨hp, fun j hj => absurd hj (Nat.not_lt_zero j)⟩
    · simp only [findSub, hp, Bool.false_eq_true, if_false] at h
      rcases Option.map_eq_some'.mp h with ⟨k0, hk0, rfl⟩
      rcases ih k0 hk0 with ⟨h1, h2⟩
      refine ⟨by simpa using h1, ?_⟩
      intro j hj
      cases j with
      | zero => simpa using Bool.eq_false_iff.mpr hp
      | succ j0 => simpa using h2 j0 (by omega)

theorem findSub_none (pat : List Char) (hpat : pat ≠ []) :
    ∀ s : List Char, findSub pat s = none →
      ∀ j, pat.isPrefixOf (s.drop j) = false := by
  have hnil : pat.isPrefixOf ([] : List Char) = false := by
    cases pat with
    | nil => exact absurd rfl hpat
    | cons a l => rfl
  intro s
  induction s with
  | nil => intro _ j; simpa using hnil
  | cons c cs ih =>
    intro h j
    by_cases hp : pat.isPrefixOf (c :: cs) = true
    · simp [findSub, hp] at h
    · simp only [findSub, hp, Bool.false_eq_true, if_false, Option.map_eq_none'] at h
      cases j with
      | zero => simpa using Bool.eq_false_iff.mpr hp
      | succ j0 => simpa using ih h j0

/-- C8: the SectionSplitter splits the decoded text exactly at the first
occurrence of the RTF token, dropping nothing: the two parts always
concatenate back to the input; when the token occurs, the plain part is the
prefix strictly before its first occurrence and the RTF part everything from
it on; when it is absent, the plain part is the whole text and the RTF part
is empty. -/
theorem section_splitter_spec : ∀ t : List Char,
    (split_plain_rtf t).1 ++ (split_plain_rtf t).2 = t ∧
    (∀ i, rtfToken.isPrefixOf (t.drop i) = true →
      (∀ j, j < i → rtfToken.isPrefixOf (t.drop j) = false) →
      (split_plain_rtf t).1 = t.take i ∧ (split_plain_rtf t).2 = t.drop i) ∧
    ((∀ i, rtfToken.isPrefixOf (t.drop i) = false) →
      (split_plain_rtf t).1 = t ∧ (split_plain_rtf t).2 = []) := by
  intro t
  cases hf : findSub rtfToken t with
  | none =>
    have hall := findSub_none rtfToken (by decide) t hf
    refine ⟨?_, ?_, ?_⟩
    · simp [split_plain_rtf, hf]
    · intro i hi _
      rw [hall i] at hi
      exact absurd hi (by simp)
    · intro _
      constructor <;> simp [split_plain_rtf, hf]
  | some k =>
    rcases findSub_some rtfToken t k hf with ⟨hocc, hmin⟩
    refine ⟨?_, ?_, ?_⟩
    · simp [split_plain_rtf, hf, List.take_append_drop]
    · intro i hi hminI
      have hik : i = k := by
        rcases Nat.lt_trichotomy i k with h | h | h
        · rw [hmin i h] at hi; exact absurd hi (by simp)
        · exact h
        · rw [hminI k h] at hocc; exact absurd hocc (by simp)
      subst hik
      constructor <;> simp [split_plain_rtf, hf]
    · intro hall
      rw [hall k] at hocc
      exact absurd hocc (by simp)

/-- Witness for `section_splitter_spec` at a text whose first RTF token is at
offset 2. -/
theorem section_splitter_spec_witness :
    (split_plain_rtf exSplit).1 = exSplit.take 2 ∧
      (split_plain_rtf exSplit).2 = exSplit.drop 2 :=
  (section_splitter_spec exSplit).2.1 2 (by decide) (by decide)

theorem find_zlib_none_iff : ∀ l : List Nat, find_zlib_start l = none ↔ noPair l := by
  intro l
  induction l with
  | nil =>
    simp only [find_zlib_start, noPair, List.length_nil, true_iff]
    intro i hi
    omega
  | cons a tail ih =>
    cases tail with
    | nil =>
      simp only [find_zlib_start, noPair, true_iff]
      intro i hi
      simp only [List.length_cons, List.length_nil] at hi
      interval_cases i
      simp
    | cons b rest =>
      by_cases hab : a = 0x78 ∧ b = 0x01
      · rcases hab with ⟨rfl, rfl⟩
        simp only [find_zlib_start, noPair]
        constructor
        · intro h; simp at h
        · intro h
          exact absurd ⟨by simp, by simp⟩ (h 0 (by simp))
      · have hcond : (a = 0x78 && b = 0x01) = false := by
          rcases Decidable.not_and_iff_or_not.mp hab with h | h <;> simp [h]
        constructor
        · intro h
          simp only [find_zlib_start, hcond, Bool.false_eq_true, if_false,
            Option.map_eq_none'] at h
          intro i hi
          cases i with
          | zero =>
            intro ⟨h1, h2⟩
            simp only [List.getElem?_cons_zero, Option.some.injEq] at h1
            simp only [List.getElem?_cons_succ, List.getElem?_cons_zero,
              Option.some.injEq] at h2
            exact hab ⟨h1, h2⟩
          | succ i0 =>
            have := (ih.mp h) i0 (by simpa using hi)
            simpa using this
        · intro h
          simp only [find_zlib_start, hcond, Bool.false_eq_true, if_false,
            Option.map_eq_none']
          apply ih.mpr
          intro i hi
          have := h (i + 1) (by simpa using hi)
          simpa using this

/-- C6 (amended): analysis fails with `tooSmall` exactly on buffers shorter
than 16 bytes; a buffer of length ≥ 16 whose little-endian 16-bit leading
word is not the magic fails with `badMagic`; and a buffer that passes both
header checks but contains no adjacent `(0x78, 0x01)` pair fails with
`payloadNotFound`.  The embedding of the analysis is a total function into
the tagged `AnalysisResult`, reflecting that failures are returned, not
thrown. -/
theorem analyze_error_cases : ∀ data : List Nat,
    (analyze_data data = .error .tooSmall ↔ data.length < 16) ∧
    (16 ≤ data.length → magicOf data ≠ 0x0303 → analyze_data data = .error .badMagic) ∧
    (16 ≤ data.length → magicOf data = 0x0303 → noPair data →
      analyze_data data = .error .payloadNotFound) := by
  intro data
  by_cases hlen : data.length < 16
  · refine ⟨by simp [analyze_data, hlen], ?_, ?_⟩ <;> intro h <;> omega
  · have hlen' : ¬data.length < 16 := hlen
    refine ⟨?_, ?_, ?_⟩
    · simp only [analyze_data, hlen', if_false, iff_false]
      intro hcontra
      revert hcontra
      split
      · simp
      · split
        · simp
        · split <;> simp
    · intro _ hmagic
      simp [analyze_data, hlen', hmagic]
    · intro _ hmagic hnp
      have hfind : find_zlib_start data = none := (find_zlib_none_iff data).mpr hnp
      simp [analyze_data, hlen', hmagic, hfind]

/-- Witness for `analyze_error_cases` at concrete buffers for each failure. -/
theorem analyze_error_cases_witness :
    (analyze_data [] = .error .tooSmall ↔ ([] : List Nat).length < 16) ∧
    analyze_data wBadMagicBuf = .error .badMagic ∧
    analyze_data wNoPairBuf = .error .payloadNotFound :=
  ⟨(analyze_error_cases []).1,
   (analyze_error_cases wBadMagicBuf).2.1 (by decide) (by decide),
   (analyze_error_cases wNoPairBuf).2.2 (by decide) (by decide) (by decide)⟩

/-- C6, counterexample to the unconditional third conjunct: the empty buffer
contains no `(0x78, 0x01)` pair, yet analysis fails with `tooSmall`, not
`payloadNotFound` (the pair scan is only reached after the length and magic
checks pass). -/
theorem analyze_empty_not_payloadNotFound :
    analyze_data [] = .error .tooSmall ∧ noPair [] ∧
      AnalysisError.tooSmall ≠ AnalysisError.payloadNotFound := by
  refine ⟨by decide, ?_, by decide⟩
  intro i hi
  simp at hi

theorem dropWhile_head_false {p : Char → Bool} :
    ∀ {l : List Char} {c : Char} {cs : List Char},
      l.dropWhile p = c :: cs → p c = false := by
  intro l
  induction l with
  | nil => intro c cs h; simp at h
  | cons a as ih =>
    intro c cs h
    by_cases hp : p a = true
    · rw [List.dropWhile_cons_of_pos hp] at h
      exact ih h
    · rw [List.dropWhile_cons_of_neg hp] at h
      cases h
      exact Bool.eq_false_iff.mpr hp

/-- The last character of a non-empty `rstrip` result is not whitespace, so
stripping leading tabs/spaces from it cannot empty it. -/
theorem rstrip_dropWhile_ne_nil {line : List Char} (h : rstrip line ≠ []) :
    (rstrip line).dropWhile isTabSpace ≠ [] := by
  intro hnil
  have hall : ∀ x ∈ rstrip line, isTabSpace x = true :=
    List.dropWhile_eq_nil_iff.mp hnil
  have hrev : line.reverse.dropWhile pySpace ≠ [] := by
    intro hr
    apply h
    simp [rstrip, hr]
  rcases List.exists_cons_of_ne_nil hrev with ⟨c, cs, hc⟩
  have hcp : pySpace c = false := dropWhile_head_false hc
  have hcmem : c ∈ rstrip line := by
    simp only [rstrip, hc]
    simp
  have hts : isTabSpace c = true := hall c hcmem
  have hpc : pySpace c = true := by
    rcases Bool.or_eq_true_iff.mp hts with h9 | h32
    · have hct : c = '\t' := by simpa using h9
      subst hct; decide
    · have hcs : c = ' ' := by simpa using h32
      subst hcs; decide
  rw [hpc] at hcp
  exact Bool.noConfusion hcp

theorem levelAux_eq :
    ∀ (cs : List Char) (sc : Nat),
      levelAux sc cs =
        (leadWS cs).count '\t' + ((sc + (leadWS cs).count ' ') / 4 - sc / 4) := by
  intro cs
  induction cs with
  | nil => intro sc; simp [levelAux, leadWS]
  | cons c cs ih =>
    intro sc
    by_cases ht : c = '\t'
    · subst ht
      have hlead : leadWS ('\t' :: cs) = '\t' :: leadWS cs := by
        simp [leadWS, List.takeWhile_cons, isTabSpace]
      rw [hlead]
      simp only [levelAux, if_true, List.count_cons]
      rw [ih sc]
      have hne : ((' ' : Char) == '\t') = false := by decide
      simp [hne]
      omega
    · by_cases hs : c = ' '
      · subst hs
        have hlead : leadWS (' ' :: cs) = ' ' :: leadWS cs := by
          simp [leadWS, List.takeWhile_cons, isTabSpace]
        rw [hlead]
        simp only [levelAux, ht, if_false, if_true, List.count_cons]
        rw [ih (sc + 1)]
        have hne : (('\t' : Char) == ' ') = false := by decide
        simp only [hne, beq_self_eq_true, if_true, if_false, cond_true, cond_false]
        by_cases h4 : (sc + 1) % 4 = 0 <;> simp [h4] <;> omega
      · have hlead : leadWS (c :: cs) = [] := by
          simp [leadWS, List.takeWhile_cons, isTabSpace, ht, hs]
        rw [hlead]
        simp [levelAux, ht, hs]

/-- C4 (amended): the hierarchy parser processes each line of the plain part:
lines blank after trailing-whitespace trimming are skipped, the title is the
trimmed line with all leading tabs and spaces stripped, and the level is +1
per leading tab plus +1 for each complete group of 4 leading spaces counted
*cumulatively* across the whole leading tab/space prefix (not per consecutive
run); the claim's three examples hold. -/
theorem hierarchy_parser_spec :
    (∀ plain, parse_hierarchy plain = (splitLines plain).filterMap specLineNode) ∧
    parse_hierarchy "\t\tAlpha".toList = [⟨"Alpha".toList, 2⟩] ∧
    parse_hierarchy "        Beta".toList = [⟨"Beta".toList, 2⟩] ∧
    parse_hierarchy "   Gamma".toList = [⟨"Gamma".toList, 0⟩] := by
  refine ⟨?_, by decide, by decide, by decide⟩
  intro plain
  unfold parse_hierarchy
  apply List.filterMap_congr
  intro line _
  simp only [specLineNode]
  by_cases hl : rstrip line = []
  · simp [hl]
  · simp only [hl, if_false, if_neg hl, rstrip_dropWhile_ne_nil hl]
    rw [levelAux_eq (rstrip line) 0]
    simp [leadWS]

/-- C4, counterexample to the consecutive-runs reading: on the line with
prefix space-space-tab-space-space, the parser computes level 2 (tabs plus
cumulative spaces `4/4`), while the claim's rule of complete runs of 4
consecutive spaces yields 1. -/
theorem hierarchy_level_counterexample :
    parse_hierarchy "  \t  Alpha".toList = [⟨"Alpha".toList, 2⟩] ∧
    specRunsLevel "  \t  Alpha".toList = 1 ∧ (2 : Nat) ≠ 1 := by decide

theorem runningCount_cons (c : Char) (cs : List Char) :
    runningCount (c :: cs) = braceDelta c + runningCount cs := by
  simp [runningCount]

theorem find?_ext {α : Type} {p q : α → Bool} (h : ∀ a, p a = q a) :
    ∀ l : List α, l.find? p = l.find? q := by
  intro l
  induction l with
  | nil => rfl
  | cons a as ih =>
    by_cases hp : p a = true
    · rw [List.find?_cons_of_pos _ hp, List.find?_cons_of_pos _ (by rw [← h a]; exact hp)]
    · rw [List.find?_cons_of_neg _ hp, List.find?_cons_of_neg _ (by rw [← h a]; exact hp), ih]

/-- The brace-count loop returns (one past) the first position at which the
running count, started at `n > 0`, reaches 0. -/
theorem braceScan_eq_firstReturn :
    ∀ (cs : List Char) (n : Int), 0 < n →
      braceScan cs n =
        ((List.range cs.length).find? fun p =>
          n + runningCount (cs.take (p + 1)) == 0).map (· + 1) := by
  intro cs
  induction cs with
  | nil => intro n _; simp [braceScan]
  | cons c cs ih =>
    intro n hn
    have hrange : List.range (c :: cs).length = 0 :: (List.range cs.length).map Nat.succ := by
      simp [List.range_succ_eq_map]
    have hpred0 : (n + runningCount ((c :: cs).take (0 + 1)) == 0) =
        (n + braceDelta c == 0) := by
      simp [runningCount_cons, runningCount]
    have hps : ∀ q, ((fun p => n + runningCount ((c :: cs).take (p + 1)) == 0) ∘ Nat.succ) q =
        (fun p => n + braceDelta c + runningCount (cs.take (p + 1)) == 0) q := by
      intro q
      simp [Function.comp, List.take_succ_cons, runningCount_cons, Int.add_assoc]
    have hfind : ∀ m : Int, (n + braceDelta c == 0) = false → 0 < m →
        m = n + braceDelta c →
        ((List.range (c :: cs).length).find? fun p =>
            n + runningCount ((c :: cs).take (p + 1)) == 0).map (· + 1) =
          (braceScan cs m).map (· + 1) := by
      intro m hfalse hm hmeq
      rw [hrange, List.find?_cons_of_neg _ (by simp only [hpred0, hfalse]; simp),
        List.find?_map, find?_ext hps, ← hmeq, ih m hm]
    by_cases hc1 : c = '{'
    · subst hc1
      have hdelta : braceDelta '{' = 1 := by decide
      have hfalse : (n + braceDelta '{' == 0) = false := by
        rw [hdelta]
        simp only [beq_eq_false_iff_ne, ne_eq]
        omega
      rw [hfind (n + 1) hfalse (by omega) (by rw [hdelta])]
      simp [braceScan]
    · by_cases hc2 : c = '}'
      · subst hc2
        have hdelta : braceDelta '}' = -1 := by decide
        by_cases h1 : n - 1 = 0
        · have hn1 : n = 1 := by omega
          subst hn1
          rw [hrange]
          rw [List.find?_cons_of_pos _ (by simp only [hpred0, hdelta]; decide)]
          simp [braceScan]
        · have hfalse : (n + braceDelta '}' == 0) = false := by
            rw [hdelta]
            simp only [beq_eq_false_iff_ne, ne_eq]
            omega
          rw [hfind (n - 1) hfalse (by omega) (by rw [hdelta]; omega)]
          simp [braceScan, hc1, h1]
      · have hdelta : braceDelta c = 0 := by simp [braceDelta, hc1, hc2]
        have hfalse : (n + braceDelta c == 0) = false := by
          rw [hdelta]
          simp only [beq_eq_false_iff_ne, ne_eq]
          omega
        rw [hfind n hfalse hn (by rw [hdelta]; omega)]
        simp [braceScan, hc1, hc2]

/-- C5: at any start offset carrying the `\x7b\\rtf` token, extraction returns
the substring from the start offset through the first position at which the
running brace count returns to 0 (inclusive), and the whole remainder of the
buffer when the count never returns to 0. -/
theorem extract_brace_balance :
    ∀ (rtf : List Char) (start : Nat),
      rtfToken.isPrefixOf (rtf.drop start) = true →
      extract_complete_rtf rtf start =
        (match firstReturnPos (rtf.drop start) with
         | some p => (rtf.drop start).take (p + 1)
         | none => rtf.drop start) := by
  intro rtf start h
  cases hd : rtf.drop start with
  | nil => rw [hd] at h; exact absurd h (by decide)
  | cons c t2 =>
    rw [hd] at h
    have hc : c = '{' := by
      have := h
      simp only [rtfToken, List.isPrefixOf, Bool.and_eq_true, beq_iff_eq] at this
      exact this.1.symm
    subst hc
    have hlt : ¬rtf.length ≤ start := by
      intro hle
      have : rtf.drop start = [] := List.drop_eq_nil_of_le hle
      rw [this] at hd
      exact List.noConfusion hd
    have hscan : braceScan ('{' :: t2) 0 = (braceScan t2 1).map (· + 1) := by
      simp [braceScan]
    have hmain := braceScan_eq_firstReturn t2 1 (by omega)
    have hfr : firstReturnPos ('{' :: t2) =
        ((List.range t2.length).find? fun p =>
          1 + runningCount (t2.take (p + 1)) == 0).map Nat.succ := by
      unfold firstReturnPos
      rw [show List.range ('{' :: t2).length = 0 :: (List.range t2.length).map Nat.succ by
        simp [List.range_succ_eq_map]]
      rw [List.find?_cons_of_neg _ (by simp [runningCount_cons, runningCount, braceDelta])]
      rw [List.find?_map]
      apply congrArg
      apply find?_ext
      intro q
      simp [Function.comp, List.take_succ_cons, runningCount_cons, braceDelta,
        Int.add_assoc]
    unfold extract_complete_rtf
    rw [if_neg hlt, hd, if_pos h, hscan, hmain, hfr]
    cases hinner : (List.range t2.length).find? fun p =>
        1 + runningCount (t2.take (p + 1)) == 0 with
    | none => simp
    | some q => simp [Nat.succ_eq_add_one]

/-- Witness for `extract_brace_balance` at the spec's example, where the
extracted document is the entire input. -/
theorem extract_brace_balance_witness :
    rtfToken.isPrefixOf (exNestedRtf.drop 0) = true ∧
    (extract_complete_rtf exNestedRtf 0 =
      match firstReturnPos (exNestedRtf.drop 0) with
      | some p => (exNestedRtf.drop 0).take (p + 1)
      | none => exNestedRtf.drop 0) ∧
    extract_complete_rtf exNestedRtf 0 = exNestedRtf :=
  ⟨by decide, extract_brace_balance exNestedRtf 0 (by decide), by decide⟩

theorem rtfStartsAux_mem (rtf : List Char) :
    ∀ (fuel pos i : Nat), i ∈ rtfStartsAux rtf pos fuel →
      pos ≤ i ∧ rtfToken.isPrefixOf (rtf.drop i) = true := by
  intro fuel
  induction fuel with
  | zero => intro pos i h; simp [rtfStartsAux] at h
  | succ fuel ih =>
    intro pos i h
    cases hf : findSub rtfToken (rtf.drop pos) with
    | none => rw [rtfStartsAux, hf] at h; simp at h
    | some k =>
      rw [rtfStartsAux, hf] at h
      rcases List.mem_cons.mp h with rfl | hmem
      · refine ⟨Nat.le_add_right pos k, ?_⟩
        have := (findSub_some rtfToken (rtf.drop pos) k hf).1
        rwa [List.drop_drop] at this
      · rcases ih (pos + k + 1) i hmem with ⟨h1, h2⟩
        exact ⟨by omega, h2⟩

theorem rtfStartsAux_pairwise (rtf : List Char) :
    ∀ fuel pos, (rtfStartsAux rtf pos fuel).Pairwise (· < ·) := by
  intro fuel
  induction fuel with
  | zero => intro pos; simp [rtfStartsAux]
  | succ fuel ih =>
    intro pos
    cases hf : findSub rtfToken (rtf.drop pos) with
    | none => rw [rtfStartsAux, hf]; simp
    | some k =>
      rw [rtfStartsAux, hf]
      refine List.Pairwise.cons ?_ (ih (pos + k + 1))
      intro j hj
      have := (rtfStartsAux_mem rtf fuel (pos + k + 1) j hj).1
      omega

theorem drop_ne_nil_of_token {rtf : List Char} {i : Nat}
    (h : rtfToken.isPrefixOf (rtf.drop i) = true) : i < rtf.length := by
  by_contra hle
  have hnil : rtf.drop i = [] := List.drop_eq_nil_of_le (by omega)
  rw [hnil] at h
  exact absurd h (by decide)

theorem rtfStartsAux_complete (rtf : List Char) :
    ∀ (fuel pos i : Nat),
      rtfToken.isPrefixOf (rtf.drop i) = true → pos ≤ i →
      rtf.length + 1 ≤ fuel + pos →
      i ∈ rtfStartsAux rtf pos fuel := by
  intro fuel
  induction fuel with
  | zero =>
    intro pos i h hpi hfuel
    have := drop_ne_nil_of_token h
    omega
  | succ fuel ih =>
    intro pos i h hpi hfuel
    cases hf : findSub rtfToken (rtf.drop pos) with
    | none =>
      have := findSub_none rtfToken (by decide) (rtf.drop pos) hf (i - pos)
      rw [List.drop_drop, Nat.add_sub_cancel' hpi] at this
      rw [this] at h
      exact absurd h (by simp)
    | some k =>
      rcases findSub_some rtfToken (rtf.drop pos) k hf with ⟨_, hmin⟩
      rw [rtfStartsAux, hf]
      rcases Nat.lt_trichotomy i (pos + k) with hlt | rfl | hgt
      · have hmle := hmin (i - pos) (by omega)
        rw [List.drop_drop, Nat.add_sub_cancel' hpi] at hmle
        rw [hmle] at h
        exact absurd h (by simp)
      · exact List.mem_cons_self _ _
      · refine List.mem_cons_of_mem _ (ih (pos + k + 1) i h (by omega) (by omega))

/-- Membership characterization: `rtfStarts` records exactly the token
occurrences. -/
theorem rtfStarts_mem_iff (rtf : List Char) (i : Nat) :
    i ∈ rtfStarts rtf ↔ rtfToken.isPrefixOf (rtf.drop i) = true := by
  constructor
  · intro h
    exact (rtfStartsAux_mem rtf (rtf.length + 1) 0 i h).2
  · intro h
    exact rtfStartsAux_complete rtf (rtf.length + 1) 0 i h (Nat.zero_le i) (by omega)

theorem braceScan_pos :
    ∀ (cs : List Char) (n : Int) (k : Nat), braceScan cs n = some k → 1 ≤ k := by
  intro cs
  induction cs with
  | nil => intro n k h; simp [braceScan] at h
  | cons c cs ih =>
    intro n k h
    simp only [braceScan] at h
    split at h
    · rcases Option.map_eq_some'.mp h with ⟨k0, _, rfl⟩; omega
    · split at h
      · split at h
        · cases h; omega
        · rcases Option.map_eq_some'.mp h with ⟨k0, _, rfl⟩; omega
      · rcases Option.map_eq_some'.mp h with ⟨k0, _, rfl⟩; omega

theorem extract_ne_nil {rtf : List Char} {s : Nat}
    (h : rtfToken.isPrefixOf (rtf.drop s) = true) :
    extract_complete_rtf rtf s ≠ [] := by
  have hlen := drop_ne_nil_of_token h
  have hnil : rtf.drop s ≠ [] := by
    intro hn
    rw [hn] at h
    exact absurd h (by decide)
  unfold extract_complete_rtf
  rw [if_neg (by omega), if_pos h]
  cases hb : braceScan (rtf.drop s) 0 with
  | none => exact hnil
  | some k =>
    have hk := braceScan_pos (rtf.drop s) 0 k hb
    simp only [ne_eq, List.take_eq_nil_iff]
    push_neg
    exact ⟨by omega, hnil⟩

/-- C10: every occurrence of the RTF token is recorded as a document start —
also occurrences strictly inside the brace-balanced extent of an earlier
document — the recorded start offsets are strictly increasing, every
document's end offset exceeds its start offset, and extents can overlap: in
`ovEx` the second document `(8, 16)` lies inside the first `(0, 17)`, and both
participate in positional pairing. -/
theorem rtf_document_discovery :
    (∀ rtf : List Char,
      (∀ i, i ∈ rtfStarts rtf ↔ rtfToken.isPrefixOf (rtf.drop i) = true) ∧
      (rtfStarts rtf).Pairwise (· < ·) ∧
      (∀ d ∈ buildDocs rtf, d.start_pos < d.end_pos)) ∧
    rtfStarts ovEx = [0, 8] ∧
    (buildDocs ovEx).map (fun d => (d.start_pos, d.end_pos)) = [(0, 17), (8, 16)] ∧
    (pairChapters ovEx [⟨['a'], 0⟩, ⟨['b'], 0⟩]).map Chapter.rtf_index =
      [some 0, some 1] := by
  refine ⟨?_, by decide, by decide, by decide⟩
  intro rtf
  refine ⟨rtfStarts_mem_iff rtf, rtfStartsAux_pairwise rtf _ 0, ?_⟩
  intro d hd
  rcases List.mem_map.mp hd with ⟨p, hp, rfl⟩
  have hps : p.2 ∈ rtfStarts rtf := by
    have : p.2 ∈ (rtfStarts rtf).enum.map Prod.snd := List.mem_map_of_mem Prod.snd hp
    rwa [List.enum_map_snd] at this
  have hocc := (rtfStarts_mem_iff rtf p.2).mp hps
  have hne := extract_ne_nil hocc
  have : 0 < (extract_complete_rtf rtf p.2).length := List.length_pos.mpr hne
  simp only []
  omega

/-- Witness for `rtf_document_discovery`: the first document of `ovEx` is a
discovered document with a strictly larger end offset. -/
theorem rtf_document_discovery_witness :
    ovDoc0 ∈ buildDocs ovEx ∧ ovDoc0.start_pos < ovDoc0.end_pos :=
  ⟨by decide, (rtf_document_discovery.1 ovEx).2.2 ovDoc0 (by decide)⟩

theorem pairChapters_length (rtf : List Char) (hier : List HierarchyNode) :
    (pairChapters rtf hier).length = hier.length := by
  simp [pairChapters]

theorem split_chapters_nonempty_eq (rtf : List Char) {hier : List HierarchyNode}
    (h : hier ≠ []) : split_chapters rtf hier = pairChapters rtf hier := by
  have hne : pairChapters rtf hier ≠ [] := by
    intro he
    apply h
    have hl := pairChapters_length rtf hier
    rw [he] at hl
    exact List.length_eq_zero.mp hl.symm
  simp [split_chapters, complete_hierarchy_split_chapters, h, hne]

/-- C1: with a non-empty hierarchy, assembly yields exactly one chapter per
hierarchy entry and the pairing list is never empty, so the "zero chapters"
guard never fires and the equal-split fallback is unreachable; with an empty
hierarchy, assembly yields the single full-range chapter with the fixed
title, level 0, offsets 0 to the RTF part's length. -/
theorem chapter_count_invariant :
    ∀ (rtf : List Char) (hier : List HierarchyNode),
      (hier ≠ [] → (split_chapters rtf hier).length = hier.length ∧
        pairChapters rtf hier ≠ []) ∧
      (hier = [] → split_chapters rtf hier =
        [{ title := mainTextTitle, content := rtf_to_plain_text rtf, level := some 0,
           start_pos := 0, end_pos := rtf.length, size := (rtf_to_plain_text rtf).length,
           rtf_index := none }]) := by
  intro rtf hier
  constructor
  · intro h
    have heq := split_chapters_nonempty_eq rtf h
    refine ⟨by rw [heq, pairChapters_length], ?_⟩
    intro he
    apply h
    have hl := pairChapters_length rtf hier
    rw [he] at hl
    exact List.length_eq_zero.mp hl.symm
  · intro h
    subst h
    simp [split_chapters]

/-- Witness for `chapter_count_invariant` for both a non-empty and the empty
hierarchy. -/
theorem chapter_count_invariant_witness :
    ((split_chapters wRtf wHier).length = wHier.length ∧ pairChapters wRtf wHier ≠ []) ∧
    split_chapters wRtf [] =
      [{ title := mainTextTitle, content := rtf_to_plain_text wRtf, level := some 0,
         start_pos := 0, end_pos := wRtf.length, size := (rtf_to_plain_text wRtf).length,
         rtf_index := none }] :=
  ⟨(chapter_count_invariant wRtf wHier).1 (by decide),
   (chapter_count_invariant wRtf []).2 rfl⟩

theorem buildDocs_get?_rtf_index (rtf : List Char) (i : Nat) (doc : RTFDoc)
    (h : (buildDocs rtf).get? i = some doc) : doc.rtf_index = i := by
  rw [List.get?_eq_getElem?] at h
  simp only [buildDocs, List.getElem?_map, List.getElem?_enum] at h
  cases hs : (rtfStarts rtf)[i]? with
  | none => rw [hs] at h; simp at h
  | some s =>
    rw [hs] at h
    simp only [Option.map_some', Option.some.injEq] at h
    rw [← h]

/-- C2: with hierarchy length `H > 0` and `D` discovered documents, assembly
yields exactly `H` chapters; chapter `i < min(H, D)` takes title and level
from hierarchy entry `i` and content, offsets and size from document `i`
(size being the converted plain content's length, source index `i`); chapter
`i` with `D ≤ i < H` is the fixed-message placeholder with size 0, offsets 0
and sentinel source index `-1`. -/
theorem pairing_correspondence :
    ∀ (rtf : List Char) (hier : List HierarchyNode), hier ≠ [] →
      (split_chapters rtf hier).length = hier.length ∧
      (∀ (i : Nat) (h : HierarchyNode) (doc : RTFDoc),
        hier.get? i = some h → (buildDocs rtf).get? i = some doc →
        (split_chapters rtf hier).get? i = some
          { title := h.title, content := doc.plain_content, level := some h.level,
            start_pos := doc.start_pos, end_pos := doc.end_pos,
            size := doc.plain_content.length, rtf_index := some (i : Int) } ∧
          doc.rtf_index = i) ∧
      (∀ (i : Nat) (h : HierarchyNode),
        hier.get? i = some h → (buildDocs rtf).length ≤ i →
        (split_chapters rtf hier).get? i = some
          { title := h.title, content := noContentMsg, level := some h.level,
            start_pos := 0, end_pos := 0, size := 0, rtf_index := some (-1) }) := by
  intro rtf hier hne
  have heq := split_chapters_nonempty_eq rtf hne
  refine ⟨by rw [heq, pairChapters_length], ?_, ?_⟩
  · intro i h doc hh hd
    have hidx := buildDocs_get?_rtf_index rtf i doc hd
    rw [heq]
    constructor
    · rw [List.get?_eq_getElem?]
      simp only [pairChapters, List.getElem?_map, List.getElem?_enum]
      rw [List.get?_eq_getElem?] at hh
      rw [hh]
      simp only [Option.map_some', Option.some.injEq]
      rw [hd]
      simp [hidx]
    · exact hidx
  · intro i h hh hD
    have hd : (buildDocs rtf).get? i = none := by
      rw [List.get?_eq_getElem?]
      exact List.getElem?_eq_none hD
    rw [heq, List.get?_eq_getElem?]
    simp only [pairChapters, List.getElem?_map, List.getElem?_enum]
    rw [List.get?_eq_getElem?] at hh
    rw [hh]
    simp only [Option.map_some', Option.some.injEq]
    rw [hd]

/-- Witness for `pairing_correspondence` with one document and two hierarchy
entries: chapter 0 is built from the document, chapter 1 is the placeholder. -/
theorem pairing_correspondence_witness :
    (split_chapters wRtf wHier).length = wHier.length ∧
    ((split_chapters wRtf wHier).get? 0 = some
      { title := ['t'], content := wDoc.plain_content, level := some 0,
        start_pos := wDoc.start_pos, end_pos := wDoc.end_pos,
        size := wDoc.plain_content.length, rtf_index := some 0 } ∧
      wDoc.rtf_index = 0) ∧
    (split_chapters wRtf wHier).get? 1 = some
      { title := ['u'], content := noContentMsg, level := some 1,
        start_pos := 0, end_pos := 0, size := 0, rtf_index := some (-1) } :=
  ⟨(pairing_correspondence wRtf wHier (by decide)).1,
   (pairing_correspondence wRtf wHier (by decide)).2.1 0 ⟨['t'], 0⟩ wDoc
     (by decide) (by decide),
   (pairing_correspondence wRtf wHier (by decide)).2.2 1 ⟨['u'], 1⟩
     (by decide) (by decide)⟩

theorem length_deflateStoredAux :
    ∀ (fuel : Nat) (d : List Nat), d.length ≤ 65535 * fuel + 65535 →
      d.length ≤ (deflateStoredAux fuel d).length := by
  intro fuel
  induction fuel with
  | zero =>
    intro d hd
    simp only [deflateStoredAux, mkStoredBlock]
    simp only [List.length_cons, List.length_take]
    omega
  | succ fuel ih =>
    intro d hd
    simp only [deflateStoredAux]
    by_cases hle : d.length ≤ 65535
    · rw [if_pos hle]
      simp only [mkStoredBlock, List.length_cons]
      omega
    · rw [if_neg hle]
      have hrec := ih (d.drop 65535) (by
        simp only [List.length_drop]
        have : 65535 * (fuel + 1) = 65535 * fuel + 65535 := by ring
        omega)
      simp only [List.length_append, mkStoredBlock, List.length_cons, List.length_take,
        List.length_drop] at hrec ⊢
      omega

theorem inflate_deflate :
    ∀ (fuel1 : Nat) (d extra : List Nat) (fuel2 : Nat),
      d.length ≤ 65535 * fuel1 + 65535 → fuel1 + 1 ≤ fuel2 →
      inflateAux fuel2 (deflateStoredAux fuel1 d ++ extra) = some (d, extra) := by
  have hfinal : ∀ (d extra : List Nat) (f : Nat), d.length ≤ 65535 →
      inflateAux (f + 1) (mkStoredBlock true d ++ extra) = some (d, extra) := by
    intro d extra f hle
    simp only [mkStoredBlock, List.cons_append]
    simp only [inflateAux]
    rw [if_neg (by norm_num)]
    have hlen : d.length % 256 + 256 * (d.length / 256) = d.length :=
      Nat.mod_add_div _ _
    have hnlen : (65535 - d.length) % 256 + 256 * ((65535 - d.length) / 256) =
        65535 - d.length := Nat.mod_add_div _ _
    rw [hlen, hnlen, if_neg (by omega)]
    rw [if_neg (by simp [List.length_append])]
    rw [if_pos (by norm_num)]
    rw [List.take_left, List.drop_left]
  intro fuel1
  induction fuel1 with
  | zero =>
    intro d extra fuel2 hd hf
    have hle : d.length ≤ 65535 := by omega
    have htake : d.take 65535 = d := List.take_of_length_le (by omega)
    obtain ⟨f, rfl⟩ : ∃ f, fuel2 = f + 1 := ⟨fuel2 - 1, by omega⟩
    simp only [deflateStoredAux, htake]
    exact hfinal d extra f hle
  | succ fuel1 ih =>
    intro d extra fuel2 hd hf
    obtain ⟨f, rfl⟩ : ∃ f, fuel2 = f + 1 := ⟨fuel2 - 1, by omega⟩
    by_cases hle : d.length ≤ 65535
    · simp only [deflateStoredAux, hle, if_true]
      exact hfinal d extra f hle
    · simp only [deflateStoredAux, hle, if_false]
      have htk : (d.take 65535).length = 65535 := by
        simp only [List.length_take]
        omega
      simp only [mkStoredBlock, htk, List.append_assoc, List.cons_append]
      simp only [inflateAux]
      rw [if_neg (by norm_num)]
      have hL : 65535 % 256 + 256 * (65535 / 256) = 65535 := by norm_num
      have hN : (65535 - 65535) % 256 + 256 * ((65535 - 65535) / 256) = 0 := by norm_num
      rw [hL, hN, if_neg (by omega)]
      rw [if_neg (by simp only [List.length_append, htk]; omega)]
      rw [if_neg (by norm_num)]
      rw [List.drop_left' htk, List.take_left' htk]
      have hrec := ih (d.drop 65535) extra f (by
        simp only [List.length_drop]
        have : 65535 * (fuel1 + 1) = 65535 * fuel1 + 65535 := by ring
        omega) (by omega)
      rw [hrec]
      simp [List.take_append_drop]

/-- The modelled zlib decoder inverts the modelled zlib encoder. -/
theorem zlib_roundtrip (d : List Nat) : zlibDecompress (zlibCompress d) = some d := by
  have hself : d.length ≤ 65535 * d.length + 65535 := by
    have h1 : d.length ≤ 65535 * d.length := by
      calc d.length = 1 * d.length := (Nat.one_mul _).symm
        _ ≤ 65535 * d.length := Nat.mul_le_mul_right _ (by norm_num)
    omega
  have hlen : d.length + 1 ≤ (deflateStoredAux d.length d ++ adlerBytes d).length := by
    have := length_deflateStoredAux d.length d hself
    simp only [List.length_append, adlerBytes, List.length_cons, List.length_nil]
    omega
  simp only [zlibCompress, zlibDecompress]
  rw [if_neg (by norm_num)]
  rw [inflate_deflate d.length d (adlerBytes d) _ hself hlen]
  simp [adlerBytes]

/-- C9: for any byte list of plain ASCII text, the buffer formed by the valid
header followed by the zlib compression of the text passes the length and
magic checks, the payload locator finds the stream exactly at offset 16, and
decompressing from there recovers the text exactly. -/
theorem analysis_roundtrip :
    ∀ T : List Nat, (∀ b ∈ T, b < 128) →
      16 ≤ (validHeader ++ zlibCompress T).length ∧
      magicOf (validHeader ++ zlibCompress T) = 0x0303 ∧
      find_zlib_start (validHeader ++ zlibCompress T) = some 16 ∧
      zlibDecompress ((validHeader ++ zlibCompress T).drop 16) = some T := by
  intro T _
  have hdrop : (validHeader ++ zlibCompress T).drop 16 = zlibCompress T := by
    have h16 : validHeader.length = 16 := by decide
    rw [← h16, List.drop_left]
  refine ⟨?_, ?_, ?_, ?_⟩
  · simp [validHeader, List.length_append]
  · simp [validHeader, magicOf, List.cons_append, List.getD_cons_zero, List.getD_cons_succ]
  · simp only [validHeader, zlibCompress, List.cons_append, List.nil_append]
    norm_num [find_zlib_start]
  · rw [hdrop]
    exact zlib_roundtrip T

/-- Witness for `analysis_roundtrip` at the two-byte ASCII text `"Hi"`. -/
theorem analysis_roundtrip_witness :
    16 ≤ (validHeader ++ zlibCompress [72, 105]).length ∧
    magicOf (validHeader ++ zlibCompress [72, 105]) = 0x0303 ∧
    find_zlib_start (validHeader ++ zlibCompress [72, 105]) = some 16 ∧
    zlibDecompress ((validHeader ++ zlibCompress [72, 105]).drop 16) = some [72, 105] :=
  analysis_roundtrip [72, 105] (by decide)

set_option maxRecDepth 100000 in
/-- C3, counterexample: in the end-to-end scenario the 1st chapter is not the
placeholder — positional pairing gives it the first document's content
`"A content"` (the placeholder is the 3rd chapter). -/
theorem end_to_end_first_chapter_not_placeholder :
    analyze_data sefC3Buf = .ok sefC3Expected ∧
    (sefC3Expected.chapters.map Chapter.content).get? 0 = some "A content".toList ∧
    "A content".toList ≠ noContentMsg := by decide

set_option maxRecDepth 100000 in
/-- C3 (amended): the end-to-end scenario succeeds with the stated hierarchy
and 3 chapters, where the 1st and 2nd chapters carry `"A content"` and
`"B content"` after RTF conversion and the 3rd is the placeholder (pairing is
positional, so the missing document falls on the last hierarchy entry). -/
theorem end_to_end_scenario :
    analyze_data sefC3Buf = .ok sefC3Expected ∧
    sefC3Expected.hierarchy =
      [⟨"Outline".toList, 0⟩, ⟨"Section A".toList, 1⟩, ⟨"Section B".toList, 1⟩] ∧
    sefC3Expected.chapters.map (fun c => (c.title, c.content)) =
      [("Outline".toList, "A content".toList),
       ("Section A".toList, "B content".toList),
       ("Section B".toList, noContentMsg)] := by decide

/-- C7: step 8's numeric cleanup does strip digits of numerals adjacent to a
date-unit marker — on `"2023年"` the greedy `[0-9]+` backtracks one digit to
satisfy the look-ahead, so `"202"` matches and is replaced, leaving `" 3年"`;
the group `(?:\s+[0-9]+)*` likewise swallows `"34"` of `"12 34年"`. -/
theorem numeric_cleanup_strips_date_digits :
    removeLayoutNumbers "2023年".toList = " 3年".toList ∧
    removeLayoutNumbers "2023年".toList ≠ "2023年".toList ∧
    removeLayoutNumbers "12 34年".toList = " 年".toList ∧
    removeLayoutNumbers "1月".toList = "1月".toList := by decide

end SEF
